import Mathlib

/-!
Shallow embedding of the online multi-object tracker of
src/src/models/tracker.py (functions cosine_distance_matrix, Tracker.step,
Track.__init__, Track.update, and the call to scipy.optimize
linear_sum_assignment), together with proofs about it.

Scalars are modelled over an arbitrary linear ordered field so that the
same definitions serve real-number statements (with Real.sqrt as the
square root used by torch norm) and executable rational-number witnesses.
The square-root function of the tensor framework is threaded through as an
explicit parameter sq.

Tensor ranks are modelled faithfully: tracks store 1-D embeddings, so
torch.cat at line 69 concatenates them into a single 1-D tensor (raising
on the empty fresh state), the matmul reached from line 70 is
shape-checked against that 1-D tensor, and the scipy call at line 74
receives a 1-D cost and raises; Tracker.stepChecked chains these error
paths, and the per-stage functions and the unreachable lifecycle code of
lines 75-91 (stepFinish) are embedded separately.
-/

section TrackerModel

variable {α : Type} [LinearOrderedField α] {β : Type}

/-- Dot product of two vectors represented as lists (torch matmul of a row
with a column reduces to this). -/
def dotL (v1 v2 : List α) : α :=
  (List.zipWith (fun x y => x * y) v1 v2).sum

/-- Euclidean norm of a vector: tensor.norm(dim=-1) is the square root of
the sum of squares; sq is the square-root function of the framework. -/
def l2norm (sq : α → α) (v : List α) : α :=
  sq (dotL v v)

/-- Row renormalisation v / v.norm(dim=-1, keepdim=True) from
cosine_distance_matrix (tracker.py lines 16-17). -/
def normalizeRow (sq : α → α) (v : List α) : List α :=
  v.map (fun x => x / l2norm sq v)

/-- cosine_distance_matrix (tracker.py lines 7-20): normalise every row of
v1 and of v2, then return 1 - v1_n @ v2_n.T entrywise; row i, column j of
the result is 1 minus the dot product of the normalised row i of v1 with
the normalised row j of v2. -/
def cosine_distance_matrix (sq : α → α) (v1 v2 : List (List α)) : List (List α) :=
  v1.map (fun a => v2.map (fun b => 1 - dotL (normalizeRow sq a) (normalizeRow sq b)))

/-- Cosine similarity of two vectors, the notion named by the spec: the dot
product divided by the product of the Euclidean norms. -/
def cosineSimilarity (sq : α → α) (u v : List α) : α :=
  dotL u v / (l2norm sq u * l2norm sq v)

/-- Entry (i, j) of a matrix represented as a list of rows. -/
def entryM (A : List (List α)) (i j : ℕ) : α :=
  (A.getD i []).getD j 0

/-- Total cost of an assignment: the sum of the selected cost-matrix
entries (what scipy linear_sum_assignment minimises). -/
def totalCost (cost : List (List α)) (ms : List (ℕ × ℕ)) : α :=
  (ms.map (fun p => (cost.getD p.1 []).getD p.2 0)).sum

/-- One-to-one partial matching of maximal size between m rows and n
columns: every pair is in range, no row and no column is used twice, and
the matching has size min m n. -/
def IsMatching (m n : ℕ) (ms : List (ℕ × ℕ)) : Prop :=
  (∀ p ∈ ms, p.1 < m ∧ p.2 < n) ∧ (ms.map Prod.fst).Nodup ∧
    (ms.map Prod.snd).Nodup ∧ ms.length = min m n

/-- All complete assignments of k rows into n columns (k ≤ n): choose k
distinct columns of range n in every order and pair them with rows
0, ..., k-1 in order. -/
def candLE (k n : ℕ) : List (List (ℕ × ℕ)) :=
  ((List.range n).sublistsLen k).flatMap
    (fun c => c.permutations.map (fun p => (List.range k).zip p))

/-- All candidate optimal assignments for an m x n cost matrix: complete on
the rows when m ≤ n, complete on the columns otherwise. -/
def assignCandidates (m n : ℕ) : List (List (ℕ × ℕ)) :=
  if m ≤ n then candLE m n else (candLE n m).map (List.map Prod.swap)

/-- Modelled from the documented contract of scipy.optimize
linear_sum_assignment (an external library, invoked at tracker.py line
74) on its specified 2-D cost input: among all maximal one-to-one
row/column matchings it returns one of minimal total cost, as
(row, column) index pairs. Here it is realised as an executable
brute-force minimisation over assignCandidates. (For the non-2-D input
the tracker actually hands it, see scipy_lsa_on_vector.) -/
def linear_sum_assignment (cost : List (List α)) : List (ℕ × ℕ) :=
  ((assignCandidates cost.length (cost.headD []).length).argmin (totalCost cost)).getD []

end TrackerModel

/-- State of one Track object (tracker.py lines 93-102). -/
structure Track (α : Type) where
  track_id : ℕ
  bbox : List α
  label : ℤ
  embedding : List α
  smoothing_factor : α
  active : Bool
  to_delete : Bool
  deriving Repr, DecidableEq

section TrackerModel2

variable {α : Type} [LinearOrderedField α] {β : Type}

/-- Default value 0.5 of the smoothing_factor parameter of Track.__init__
(tracker.py line 94). -/
def defaultSmoothing : α := 1 / 2

/-- Track.__init__ (tracker.py lines 94-102): store the five parameters
and start with active = True and to_delete = False. -/
def Track.init (track_id : ℕ) (bbox : List α) (label : ℤ) (embedding : List α)
    (smoothing_factor : α) : Track α :=
  ⟨track_id, bbox, label, embedding, smoothing_factor, true, false⟩

/-- Track.update (tracker.py lines 104-106): replace the box and smooth the
embedding elementwise to (1 - smoothing_factor) * old + smoothing_factor * new. -/
def Track.update (t : Track α) (bbox : List α) (embedding : List α) : Track α :=
  { t with
    bbox := bbox
    embedding := List.zipWith
      (fun old new => (1 - t.smoothing_factor) * old + t.smoothing_factor * new)
      t.embedding embedding }

/-- Placeholder track used only as the default of list lookups in
statements; it never enters a track list. -/
def dummyTrack : Track α := ⟨0, [], 0, [], 0, true, false⟩

/-- Decoded detector output for one frame, after decode_tracking and the
leading [0] batch indexing (tracker.py lines 55-58): boxes, class labels,
confidence scores and re-identification embeddings, index-aligned. -/
structure Detections (α : Type) where
  bboxes : List (List α)
  labels : List ℤ
  scores : List α
  embeddings : List (List α)

/-- Boolean-mask selection t[mask] of torch: keep the entries whose mask
position is true, in order. -/
def maskFilter (mask : List Bool) (l : List β) : List β :=
  ((mask.zip l).filter (fun p => p.1)).map (fun p => p.2)

/-- Mask scores >= detection_threshold (tracker.py line 62). -/
def scoreMask (thr : α) (scores : List α) : List Bool :=
  scores.map (fun x => decide (thr ≤ x))

/-- Confidence filtering of tracker.py lines 60-66: one mask from the
scores, applied to bboxes, labels, scores and embeddings alike. -/
def filterDetections (thr : α) (d : Detections α) : Detections α :=
  ⟨maskFilter (scoreMask thr d.scores) d.bboxes,
   maskFilter (scoreMask thr d.scores) d.labels,
   maskFilter (scoreMask thr d.scores) d.scores,
   maskFilter (scoreMask thr d.scores) d.embeddings⟩

/-- torch.cat(ts, dim=0) on the list of per-track embedding rows
(tracker.py line 69): it raises a RuntimeError on an empty tensor list
(modelled as none). The stored track embeddings are 1-D (D,) tensors
(embeddings[row] of a (K, D) tensor at lines 76 and 85), and torch.cat
along dim 0 concatenates 1-D tensors into a single 1-D (N*D,) tensor;
stacking them into an N x D matrix would be torch.stack instead. -/
def torch_cat (ts : List (List α)) : Option (List α) :=
  match ts with
  | [] => none
  | _ => some ts.flatten

/-- Loop of tracker.py lines 75-76: for every (row, col) of the assignment,
update track col in place with detection row. -/
def applyMatches (bboxes embeddings : List (List α)) (matching : List (ℕ × ℕ))
    (tracks : List (Track α)) : List (Track α) :=
  matching.foldl
    (fun ts p =>
      match ts[p.2]? with
      | some t => ts.set p.2 (t.update (bboxes.getD p.1 []) (embeddings.getD p.1 []))
      | none => ts)
    tracks

/-- torch.matmul of an M x W matrix with a K-vector, as reached from
tracker.py line 70 through line 19: a shape-checked matrix-vector product
that raises (none) unless W = K, i.e. unless every row has the vector's
length, and otherwise yields the 1-D (M,) result. -/
def matmulMV (A : List (List α)) (v : List α) : Option (List α) :=
  if ∀ r ∈ A, r.length = v.length then some (A.map (fun r => dotL r v))
  else none

/-- cosine_distance_matrix as actually called at tracker.py line 70: v1 is
the (M, D) matrix of filtered detection embeddings, but v2 is the 1-D
(N*D,) tensor produced by torch.cat at line 69. Then v2.norm(dim=-1,
keepdim=True) normalises v2 as a whole, .T leaves a 1-D tensor unchanged,
and torch.matmul(v1_n, v2_n) is the shape-checked matrix-vector product:
it raises (none) whenever D is not N*D, and otherwise (only possible with
exactly one track) yields the 1-D tensor 1 - v1_n @ v2_n. -/
def cosine_distance_vec (sq : α → α) (v1 : List (List α)) (v2 : List α) :
    Option (List α) :=
  (matmulMV (v1.map (normalizeRow sq)) (normalizeRow sq v2)).map
    (fun w => w.map (fun x => 1 - x))

/-- Modelled from the documented input validation of scipy.optimize
linear_sum_assignment: the cost must be a 2-D array and anything else
raises ValueError. Tracker.step at tracker.py line 74 hands it the 1-D
tensor produced by line 70, so this call always raises (none). -/
def scipy_lsa_on_vector (cost1d : List α) : Option (List (ℕ × ℕ)) :=
  none

/-- Loop of tracker.py lines 84-86: append, for each unmatched detection
index, a fresh Track whose id is the length of the track list at the
moment of the append and whose data come from that detection. -/
def appendNewTracks (bboxes : List (List α)) (labels : List ℤ)
    (embeddings : List (List α)) (idxs : List ℕ) (ts0 : List (Track α)) :
    List (Track α) :=
  idxs.foldl
    (fun ts idx =>
      ts ++ [Track.init ts.length (bboxes.getD idx []) (labels.getD idx 0)
        (embeddings.getD idx []) defaultSmoothing])
    ts0

/-- Loop of tracker.py lines 89-90: set to_delete on every track whose
index is in idxs. -/
def markTracks (idxs : List ℕ) (ts0 : List (Track α)) : List (Track α) :=
  idxs.foldl
    (fun ts idx =>
      match ts[idx]? with
      | some t => ts.set idx { t with to_delete := true }
      | none => ts)
    ts0

/-- Lines 75-91 of Tracker.step, for a given assignment: update matched
tracks in place, compute the unmatched detection and track index lists
(lines 78-81), create a track per unmatched detection (lines 84-86), mark
the unmatched tracks and purge them (lines 89-91). In the source this
code is unreachable, because line 74 always raises first; it is embedded
so the model carries the whole method body. -/
def stepFinish (thr : α) (tracks : List (Track α)) (d : Detections α)
    (matching : List (ℕ × ℕ)) : List (Track α) :=
  (markTracks
    ((List.range tracks.length).filter
      (fun x => !(decide (x ∈ matching.map Prod.snd))))
    (appendNewTracks (filterDetections thr d).bboxes (filterDetections thr d).labels
      (filterDetections thr d).embeddings
      ((List.range (filterDetections thr d).bboxes.length).filter
        (fun x => !(decide (x ∈ matching.map Prod.fst))))
      (applyMatches (filterDetections thr d).bboxes (filterDetections thr d).embeddings
        matching tracks))).filter (fun t => !t.to_delete)

/-- Tracker.step as executed (tracker.py lines 36-91), from the decoded
detections on: the confidence filter of lines 60-66 runs; line 69
concatenates the stored 1-D track embeddings, raising on the empty fresh
track list; line 70 computes the cosine cost against the concatenated 1-D
tensor, raising on the matmul shape mismatch (the case of two or more
tracks); line 74 hands the 1-D cost of the one-track case to scipy, which
raises on any non-2-D input; only if all three succeeded would the
update, creation and deletion code of lines 75-91 (stepFinish) run and
the call return the new track list. -/
def Tracker.stepChecked (sq : α → α) (thr : α) (tracks : List (Track α))
    (d : Detections α) : Option (List (Track α)) :=
  match torch_cat (tracks.map (fun t => t.embedding)) with
  | none => none
  | some current_embeddings =>
    match cosine_distance_vec sq (filterDetections thr d).embeddings
        current_embeddings with
    | none => none
    | some cost_matrix =>
      match scipy_lsa_on_vector cost_matrix with
      | none => none
      | some matching => some (stepFinish thr tracks d matching)

/-- States self.tracks can hold when Tracker.step is entered: the freshly
constructed Tracker starts at [] (tracker.py line 34), and only a
completed step call changes the list — a call that raises at line 69, 70
or 74 propagates the exception before any mutation of self.tracks, so it
leaves the state as it was. -/
inductive ReachableTracker (sq : α → α) (thr : α) : List (Track α) → Prop where
  | init : ReachableTracker sq thr []
  | step (tracks : List (Track α)) (d : Detections α) (result : List (Track α)) :
      ReachableTracker sq thr tracks →
      Tracker.stepChecked sq thr tracks d = some result →
      ReachableTracker sq thr result

end TrackerModel2

/-- Decoded detections of a first frame: two confident detections with
orthogonal unit embeddings. -/
def frameA : Detections ℚ := ⟨[[0], [1]], [0, 0], [1, 1], [[1, 0], [0, 1]]⟩

/-- Decoded detections of a later frame: two confident detections with
orthogonal unit 2-D embeddings, used against a two-track state. -/
def frameC : Detections ℚ := ⟨[[3], [4]], [0, 0], [1, 1], [[0, 1], [1, 0]]⟩

/-- Square root stand-in for the rational evaluations: every norm they
compute is of a unit vector, where the identity agrees with the square
root. -/
def wSq : ℚ → ℚ := fun x => x

/-- Detection threshold of the concrete evaluations (the Tracker.__init__
default 0.1). -/
def wThr : ℚ := 1 / 10

/-- One-track state used by the concrete evaluations: the state a first
frame with one confident detection was meant to create. -/
def wTracks : List (Track ℚ) := [Track.init 0 [0] 0 [1, 0] (1 / 2)]

/-- Two-track state used by the concrete evaluations: the state frameA was
meant to create. -/
def wTracks2 : List (Track ℚ) :=
  [Track.init 0 [0] 0 [1, 0] (1 / 2), Track.init 1 [1] 0 [0, 1] (1 / 2)]

/-- One-detection frame used by the concrete evaluations. -/
def wDet : Detections ℚ := ⟨[[2]], [0], [1], [[0, 1]]⟩

section CosineLemmas

variable {α : Type} [LinearOrderedField α]

theorem dotL_nil_left (v : List α) : dotL [] v = 0 := rfl

theorem dotL_nil_right (u : List α) : dotL u [] = 0 := by cases u <;> rfl

theorem dotL_cons (x y : α) (u v : List α) :
    dotL (x :: u) (y :: v) = x * y + dotL u v := rfl

theorem dotL_comm (u v : List α) : dotL u v = dotL v u := by
  induction u generalizing v with
  | nil => rw [dotL_nil_left, dotL_nil_right]
  | cons x u ih =>
    cases v with
    | nil => rw [dotL_nil_left, dotL_nil_right]
    | cons y v => rw [dotL_cons, dotL_cons, ih, mul_comm]

theorem dotL_map_div (u v : List α) (a b : α) :
    dotL (u.map (fun x => x / a)) (v.map (fun x => x / b)) = dotL u v / (a * b) := by
  induction u generalizing v with
  | nil => simp [dotL_nil_left]
  | cons x u ih =>
    cases v with
    | nil => simp [dotL_nil_right]
    | cons y v =>
      simp only [List.map_cons, dotL_cons]
      rw [ih, div_mul_div_comm, add_div]

theorem dotL_self_nonneg (v : List α) : 0 ≤ dotL v v := by
  induction v with
  | nil => simp [dotL_nil_left]
  | cons x v ih => rw [dotL_cons]; exact add_nonneg (mul_self_nonneg x) ih

theorem normalized_dot (sq : α → α) (u v : List α) :
    dotL (normalizeRow sq u) (normalizeRow sq v) = cosineSimilarity sq u v := by
  unfold normalizeRow cosineSimilarity
  exact dotL_map_div u v (l2norm sq u) (l2norm sq v)

theorem cosine_distance_matrix_length (sq : α → α) (v1 v2 : List (List α)) :
    (cosine_distance_matrix sq v1 v2).length = v1.length := by
  simp [cosine_distance_matrix]

theorem cosine_distance_matrix_row_length (sq : α → α) {v1 v2 : List (List α)}
    {r : List α} (h : r ∈ cosine_distance_matrix sq v1 v2) : r.length = v2.length := by
  simp only [cosine_distance_matrix, List.mem_map] at h
  obtain ⟨a, -, rfl⟩ := h
  simp

theorem entryM_cosine (sq : α → α) (v1 v2 : List (List α)) {i j : ℕ}
    (hi : i < v1.length) (hj : j < v2.length) :
    entryM (cosine_distance_matrix sq v1 v2) i j =
      1 - cosineSimilarity sq (v1.getD i []) (v2.getD j []) := by
  rw [← normalized_dot]
  simp [entryM, cosine_distance_matrix, List.getElem?_map,
    List.getElem?_eq_getElem hi, List.getElem?_eq_getElem hj]

end CosineLemmas

/-- C1: for embedding matrices v1 (detections, M rows) and v2 (tracks,
N rows) with every row of nonzero norm, the cost matrix that Tracker.step
computes through cosine_distance_matrix has M rows of N entries, and entry
(i, j) is 1 minus the cosine similarity of detection embedding i and track
embedding j. -/
theorem cosine_cost_matrix_spec (v1 v2 : List (List ℝ))
    (h1 : ∀ r ∈ v1, l2norm Real.sqrt r ≠ 0) (h2 : ∀ r ∈ v2, l2norm Real.sqrt r ≠ 0) :
    (cosine_distance_matrix Real.sqrt v1 v2).length = v1.length ∧
    (∀ r ∈ cosine_distance_matrix Real.sqrt v1 v2, r.length = v2.length) ∧
    (∀ i j, i < v1.length → j < v2.length →
      entryM (cosine_distance_matrix Real.sqrt v1 v2) i j =
        1 - cosineSimilarity Real.sqrt (v1.getD i []) (v2.getD j [])) := by
  refine ⟨cosine_distance_matrix_length _ _ _,
    fun r hr => cosine_distance_matrix_row_length _ hr, fun i j hi hj => ?_⟩
  exact entryM_cosine Real.sqrt v1 v2 hi hj

/-- C10: cosine_distance_matrix (as used with the real square root) is
symmetric in its two arguments, entrywise: the (i, j) entry of the matrix
for (v1, v2) is the (j, i) entry of the matrix for (v2, v1), so the first
equals the transpose of the second; and on a pair (v, v) every diagonal
entry is zero, when every row has nonzero norm. -/
theorem cosine_distance_matrix_symm_diag (v1 v2 : List (List ℝ))
    (h1 : ∀ r ∈ v1, l2norm Real.sqrt r ≠ 0) (h2 : ∀ r ∈ v2, l2norm Real.sqrt r ≠ 0) :
    ((cosine_distance_matrix Real.sqrt v1 v2).length = v1.length ∧
     (∀ r ∈ cosine_distance_matrix Real.sqrt v1 v2, r.length = v2.length) ∧
     (∀ i j, i < v1.length → j < v2.length →
        entryM (cosine_distance_matrix Real.sqrt v1 v2) i j =
          entryM (cosine_distance_matrix Real.sqrt v2 v1) j i)) ∧
    (∀ v : List (List ℝ), (∀ r ∈ v, l2norm Real.sqrt r ≠ 0) →
      ∀ i, i < v.length → entryM (cosine_distance_matrix Real.sqrt v v) i i = 0) := by
  constructor
  · refine ⟨cosine_distance_matrix_length _ _ _,
      fun r hr => cosine_distance_matrix_row_length _ hr, fun i j hi hj => ?_⟩
    rw [entryM_cosine Real.sqrt v1 v2 hi hj, entryM_cosine Real.sqrt v2 v1 hj hi]
    unfold cosineSimilarity
    rw [dotL_comm, mul_comm]
  · intro v hv i hi
    rw [entryM_cosine Real.sqrt v v hi hi]
    unfold cosineSimilarity
    have hmem : v.getD i [] ∈ v := by
      rw [List.getD_eq_getElem?_getD, List.getElem?_eq_getElem hi, Option.getD_some]
      exact List.getElem_mem hi
    have hne : l2norm Real.sqrt (v.getD i []) ≠ 0 := hv _ hmem
    have hnn : 0 ≤ dotL (v.getD i []) (v.getD i []) := dotL_self_nonneg _
    have hms : Real.sqrt (dotL (v.getD i []) (v.getD i [])) *
        Real.sqrt (dotL (v.getD i []) (v.getD i [])) =
        dotL (v.getD i []) (v.getD i []) := Real.mul_self_sqrt hnn
    have hd : dotL (v.getD i []) (v.getD i []) ≠ 0 := by
      intro h0
      apply hne
      rw [l2norm, h0, Real.sqrt_zero]
    simp only [l2norm]
    rw [hms, div_self hd]
    ring

section AssignmentLemmas

variable {α : Type} [LinearOrderedField α]

theorem totalCost_perm (cost : List (List α)) {ms1 ms2 : List (ℕ × ℕ)}
    (h : ms1.Perm ms2) : totalCost cost ms1 = totalCost cost ms2 :=
  (h.map _).sum_eq

theorem mem_candLE {k n : ℕ} (hkn : k ≤ n) {e : List (ℕ × ℕ)}
    (he : e ∈ candLE k n) : IsMatching k n e := by
  simp only [candLE, List.mem_flatMap, List.mem_map] at he
  obtain ⟨c, hc, p, hp, rfl⟩ := he
  rw [List.mem_sublistsLen] at hc
  rw [List.mem_permutations] at hp
  have hcnd : c.Nodup := (List.nodup_range n).sublist hc.1
  have hpnd : p.Nodup := (List.Perm.nodup_iff hp).mpr hcnd
  have hplen : p.length = k := hp.length_eq.trans hc.2
  have hfst : ((List.range k).zip p).map Prod.fst = List.range k :=
    List.map_fst_zip _ _ (by rw [hplen, List.length_range])
  have hsnd : ((List.range k).zip p).map Prod.snd = p :=
    List.map_snd_zip _ _ (by rw [hplen, List.length_range])
  refine ⟨?_, ?_, ?_, ?_⟩
  · intro q hq
    have h1 : q.1 ∈ List.range k := by
      rw [← hfst]; exact List.mem_map_of_mem _ hq
    have h2 : q.2 ∈ p := by
      rw [← hsnd]; exact List.mem_map_of_mem _ hq
    have h3 : q.2 ∈ List.range n := hc.1.subset (hp.subset h2)
    exact ⟨List.mem_range.mp h1, List.mem_range.mp h3⟩
  · rw [hfst]; exact List.nodup_range k
  · rw [hsnd]; exact hpnd
  · have hlen : ((List.range k).zip p).length = k := by
      rw [List.length_zip, List.length_range, hplen, Nat.min_self]
    rw [hlen]
    exact (Nat.min_eq_left hkn).symm

theorem candLE_ne_nil {k n : ℕ} (hkn : k ≤ n) : candLE k n ≠ [] := by
  have hmem : (List.range k).zip ((List.range n).take k) ∈ candLE k n := by
    simp only [candLE, List.mem_flatMap, List.mem_map]
    refine ⟨(List.range n).take k, ?_, ⟨(List.range n).take k, ?_, rfl⟩⟩
    · rw [List.mem_sublistsLen]
      exact ⟨List.take_sublist _ _,
        by rw [List.length_take, List.length_range]; exact Nat.min_eq_left hkn⟩
    · rw [List.mem_permutations]
  exact List.ne_nil_of_mem hmem

theorem candLE_complete {k n : ℕ} (hkn : k ≤ n) {ms : List (ℕ × ℕ)}
    (hm : IsMatching k n ms) : ∃ e ∈ candLE k n, e.Perm ms := by
  obtain ⟨hb, hf, hs, hl⟩ := hm
  rw [Nat.min_eq_left hkn] at hl
  have hrows_sub : (ms.map Prod.fst) ⊆ List.range k := by
    intro x hx
    obtain ⟨p, hp, rfl⟩ := List.mem_map.mp hx
    exact List.mem_range.mpr (hb p hp).1
  have hrows_perm : (ms.map Prod.fst).Perm (List.range k) := by
    refine (hf.subperm hrows_sub).perm_of_length_le ?_
    rw [List.length_range, List.length_map, hl]
  have hfind : ∀ i, i < k →
      ∃ p, ms.find? (fun q => q.1 == i) = some p ∧ p ∈ ms ∧ p.1 = i := by
    intro i hi
    have hmem : i ∈ ms.map Prod.fst := hrows_perm.mem_iff.mpr (List.mem_range.mpr hi)
    obtain ⟨p, hp, hpe⟩ := List.mem_map.mp hmem
    have hsome : (ms.find? (fun q => q.1 == i)).isSome := by
      rw [List.find?_isSome]
      exact ⟨p, hp, by simp [hpe]⟩
    obtain ⟨q, hq⟩ := Option.isSome_iff_exists.mp hsome
    refine ⟨q, hq, List.mem_of_find?_eq_some hq, ?_⟩
    have := List.find?_some hq
    simpa using this
  have hcolval : ∀ p ∈ ms,
      (((ms.find? (fun q => q.1 == p.1)).map Prod.snd).getD 0) = p.2 := by
    intro p hp
    obtain ⟨q, hq, hqm, hq1⟩ := hfind p.1 (hb p hp).1
    have hqp : q = p := List.inj_on_of_nodup_map hf hqm hp (by rw [hq1])
    simp [hq, hqp]
  have hmsnodup : ms.Nodup := hf.of_map
  have hesub : ms ⊆ (List.range k).map
      (fun i => (i, ((ms.find? (fun q => q.1 == i)).map Prod.snd).getD 0)) := by
    intro p hp
    rw [List.mem_map]
    exact ⟨p.1, List.mem_range.mpr (hb p hp).1, by rw [hcolval p hp]⟩
  have heperm : ms.Perm ((List.range k).map
      (fun i => (i, ((ms.find? (fun q => q.1 == i)).map Prod.snd).getD 0))) := by
    refine (hmsnodup.subperm hesub).perm_of_length_le ?_
    rw [List.length_map, List.length_range, hl]
  have hcnd : ((List.range k).map
      (fun i => ((ms.find? (fun q => q.1 == i)).map Prod.snd).getD 0)).Nodup := by
    refine List.Nodup.map_on ?_ (List.nodup_range k)
    intro i hi j hj hij
    obtain ⟨p, hp, hpm, hp1⟩ := hfind i (List.mem_range.mp hi)
    obtain ⟨q, hq, hqm, hq1⟩ := hfind j (List.mem_range.mp hj)
    rw [hp, hq] at hij
    simp only [Option.map_some', Option.getD_some] at hij
    have : p = q := List.inj_on_of_nodup_map hs hpm hqm hij
    rw [← hp1, ← hq1, this]
  have hcsub : ((List.range k).map
      (fun i => ((ms.find? (fun q => q.1 == i)).map Prod.snd).getD 0)) ⊆
      List.range n := by
    intro x hx
    obtain ⟨i, hi, rfl⟩ := List.mem_map.mp hx
    obtain ⟨p, hp, hpm, hp1⟩ := hfind i (List.mem_range.mp hi)
    rw [hp]
    simp only [Option.map_some', Option.getD_some]
    exact List.mem_range.mpr (hb p hpm).2
  obtain ⟨c, hcperm, hcsl⟩ := hcnd.subperm hcsub
  have hzip : ((List.range k).map
      (fun i => (i, ((ms.find? (fun q => q.1 == i)).map Prod.snd).getD 0))) =
      (List.range k).zip ((List.range k).map
        (fun i => ((ms.find? (fun q => q.1 == i)).map Prod.snd).getD 0)) :=
    List.map_prod_left_eq_zip _
  refine ⟨(List.range k).zip ((List.range k).map
      (fun i => ((ms.find? (fun q => q.1 == i)).map Prod.snd).getD 0)), ?_,
    by rw [← hzip]; exact heperm.symm⟩
  simp only [candLE, List.mem_flatMap, List.mem_map]
  refine ⟨c, ?_, ⟨(List.range k).map
      (fun i => ((ms.find? (fun q => q.1 == i)).map Prod.snd).getD 0), ?_, rfl⟩⟩
  · rw [List.mem_sublistsLen]
    refine ⟨hcsl, ?_⟩
    rw [hcperm.length_eq, List.length_map, List.length_range]
  · rw [List.mem_permutations]
    exact hcperm.symm

theorem isMatching_swap {m n : ℕ} {ms : List (ℕ × ℕ)} (h : IsMatching m n ms) :
    IsMatching n m (ms.map Prod.swap) := by
  obtain ⟨hb, hf, hs, hl⟩ := h
  refine ⟨?_, ?_, ?_, ?_⟩
  · intro p hp
    obtain ⟨q, hq, rfl⟩ := List.mem_map.mp hp
    exact ⟨(hb q hq).2, (hb q hq).1⟩
  · rw [List.map_map]
    have hcomp : Prod.fst ∘ (Prod.swap : ℕ × ℕ → ℕ × ℕ) = Prod.snd := rfl
    rw [hcomp]; exact hs
  · rw [List.map_map]
    have hcomp : Prod.snd ∘ (Prod.swap : ℕ × ℕ → ℕ × ℕ) = Prod.fst := rfl
    rw [hcomp]; exact hf
  · rw [List.length_map, hl, Nat.min_comm]

theorem map_swap_swap (ms : List (ℕ × ℕ)) : (ms.map Prod.swap).map Prod.swap = ms := by
  simp [List.map_map]

end AssignmentLemmas

/-- C2: for every m x n cost matrix, linear_sum_assignment (the assignment
computed in Tracker.step, rows indexing detections and columns indexing
tracks) is a one-to-one partial matching of size min m n between rows and
columns, and its total cost is minimal among all such matchings. -/
theorem linear_sum_assignment_spec {α : Type} [LinearOrderedField α]
    (cost : List (List α)) (m n : ℕ)
    (hm : cost.length = m) (hn : ∀ r ∈ cost, r.length = n) :
    IsMatching m n (linear_sum_assignment cost) ∧
    ∀ ms, IsMatching m n ms →
      totalCost cost (linear_sum_assignment cost) ≤ totalCost cost ms := by
  rcases Nat.eq_zero_or_pos m with hm0 | hmpos
  · subst hm0
    have hnil : cost = [] := List.length_eq_zero.mp hm
    subst hnil
    have hcand : assignCandidates 0 0 = [[]] := by with_unfolding_all decide
    have hlsa : linear_sum_assignment ([] : List (List α)) = [] := by
      unfold linear_sum_assignment
      simp only [List.length_nil, List.headD_nil, hcand]
      rw [List.argmin_singleton]
      rfl
    rw [hlsa]
    refine ⟨⟨by simp, by simp, by simp, by simp⟩, ?_⟩
    intro ms hms
    have hms0 : ms = [] := List.length_eq_zero.mp (by rw [hms.2.2.2]; simp)
    subst hms0
    exact le_refl _
  · have hhead : (cost.headD []).length = n := by
      cases cost with
      | nil => rw [← hm] at hmpos; simp at hmpos
      | cons r rest => exact hn r (List.mem_cons_self r rest)
    have hkey : linear_sum_assignment cost =
        ((assignCandidates m n).argmin (totalCost cost)).getD [] := by
      unfold linear_sum_assignment
      rw [hm, hhead]
    have hne : assignCandidates m n ≠ [] := by
      unfold assignCandidates
      by_cases hmn : m ≤ n
      · rw [if_pos hmn]; exact candLE_ne_nil hmn
      · rw [if_neg hmn]
        intro hcon
        exact candLE_ne_nil (Nat.le_of_lt (Nat.lt_of_not_le hmn))
          (List.map_eq_nil_iff.mp hcon)
    obtain ⟨b, hb⟩ : ∃ b, (assignCandidates m n).argmin (totalCost cost) = some b := by
      cases h : (assignCandidates m n).argmin (totalCost cost) with
      | none => exact absurd (List.argmin_eq_none.mp h) hne
      | some b => exact ⟨b, rfl⟩
    have hbmem : b ∈ assignCandidates m n := List.argmin_mem (Option.mem_def.mpr hb)
    have hlsab : linear_sum_assignment cost = b := by rw [hkey, hb]; rfl
    have hmin : ∀ a ∈ assignCandidates m n, totalCost cost b ≤ totalCost cost a :=
      fun a ha => List.le_of_mem_argmin ha (Option.mem_def.mpr hb)
    have hbmatch : IsMatching m n b := by
      unfold assignCandidates at hbmem
      by_cases hmn : m ≤ n
      · rw [if_pos hmn] at hbmem; exact mem_candLE hmn hbmem
      · rw [if_neg hmn] at hbmem
        obtain ⟨b', hb', rfl⟩ := List.mem_map.mp hbmem
        exact isMatching_swap
          (mem_candLE (Nat.le_of_lt (Nat.lt_of_not_le hmn)) hb')
    refine ⟨by rw [hlsab]; exact hbmatch, ?_⟩
    intro ms hms
    rw [hlsab]
    by_cases hmn : m ≤ n
    · obtain ⟨e, he, heperm⟩ := candLE_complete hmn hms
      rw [← totalCost_perm cost heperm]
      apply hmin
      unfold assignCandidates
      rw [if_pos hmn]
      exact he
    · have hnm : n ≤ m := Nat.le_of_lt (Nat.lt_of_not_le hmn)
      obtain ⟨e, he, heperm⟩ := candLE_complete hnm (isMatching_swap hms)
      have hmem2 : e.map Prod.swap ∈ assignCandidates m n := by
        unfold assignCandidates
        rw [if_neg hmn]
        exact List.mem_map_of_mem _ he
      have hperm2 : (e.map Prod.swap).Perm ms := by
        have hx := heperm.map Prod.swap
        rwa [map_swap_swap] at hx
      rw [← totalCost_perm cost hperm2]
      exact hmin _ hmem2

section StepLemmas

variable {α : Type} [LinearOrderedField α] {β : Type}

theorem getD_of_lt (l : List β) (d : β) {i : ℕ} (h : i < l.length) :
    l.getD i d = l[i] := by
  rw [List.getD_eq_getElem?_getD, List.getElem?_eq_getElem h, Option.getD_some]

theorem applyMatches_cons (bboxes embeddings : List (List α)) (p : ℕ × ℕ)
    (rest : List (ℕ × ℕ)) (tracks : List (Track α)) :
    applyMatches bboxes embeddings (p :: rest) tracks =
      applyMatches bboxes embeddings rest
        (match tracks[p.2]? with
         | some t => tracks.set p.2
             (t.update (bboxes.getD p.1 []) (embeddings.getD p.1 []))
         | none => tracks) := rfl

theorem applyMatches_length (bboxes embeddings : List (List α))
    (matching : List (ℕ × ℕ)) (tracks : List (Track α)) :
    (applyMatches bboxes embeddings matching tracks).length = tracks.length := by
  induction matching generalizing tracks with
  | nil => rfl
  | cons p rest ih =>
    rw [applyMatches_cons]
    cases h : tracks[p.2]? with
    | none => simp only [h, ih]
    | some t => simp only [h, ih, List.length_set]

theorem applyMatches_getElem? (bboxes embeddings : List (List α))
    {matching : List (ℕ × ℕ)} (hnd : (matching.map Prod.snd).Nodup)
    (tracks : List (Track α)) (i : ℕ) :
    (applyMatches bboxes embeddings matching tracks)[i]? =
      (matching.find? (fun p => p.2 == i)).elim tracks[i]?
        (fun p => (tracks[i]?).map
          (fun t => t.update (bboxes.getD p.1 []) (embeddings.getD p.1 []))) := by
  induction matching generalizing tracks with
  | nil => simp [applyMatches]
  | cons q rest ih =>
    rw [applyMatches_cons]
    rw [List.map_cons, List.nodup_cons] at hnd
    obtain ⟨hq2, hnd2⟩ := hnd
    by_cases hqi : q.2 = i
    · subst hqi
      have hfind : ((q :: rest).find? (fun p => p.2 == q.2)) = some q := by
        rw [List.find?_cons_of_pos]
        simp
      rw [hfind, ih hnd2]
      have hnone : rest.find? (fun p => p.2 == q.2) = none := by
        rw [List.find?_eq_none]
        intro x hx hbeq
        exact hq2 (List.mem_map.mpr ⟨x, hx, by simpa using hbeq⟩)
      rw [hnone]
      cases h : tracks[q.2]? with
      | none => simp [h]
      | some t =>
        have hlt : q.2 < tracks.length := (List.getElem?_eq_some.mp h).1
        simp [h, List.getElem?_set_self hlt]
    · have hfind : ((q :: rest).find? (fun p => p.2 == i)) =
          rest.find? (fun p => p.2 == i) := by
        rw [List.find?_cons_of_neg]
        simp [hqi]
      rw [hfind, ih hnd2]
      have hsame : (match tracks[q.2]? with
          | some t => tracks.set q.2
              (t.update (bboxes.getD q.1 []) (embeddings.getD q.1 []))
          | none => tracks)[i]? = tracks[i]? := by
        cases h : tracks[q.2]? with
        | none => rfl
        | some t => simp [List.getElem?_set_ne hqi]
      rw [hsame]

theorem markTracks_cons (a : ℕ) (rest : List ℕ) (ts0 : List (Track α)) :
    markTracks (a :: rest) ts0 =
      markTracks rest
        (match ts0[a]? with
         | some t => ts0.set a { t with to_delete := true }
         | none => ts0) := rfl

theorem markTracks_getElem? {idxs : List ℕ} (hnd : idxs.Nodup)
    (ts0 : List (Track α)) (i : ℕ) :
    (markTracks idxs ts0)[i]? =
      if i ∈ idxs then (ts0[i]?).map (fun t => { t with to_delete := true })
      else ts0[i]? := by
  induction idxs generalizing ts0 with
  | nil => simp [markTracks]
  | cons a rest ih =>
    rw [markTracks_cons]
    obtain ⟨hna, hnr⟩ := List.nodup_cons.mp hnd
    rw [ih hnr]
    by_cases hia : i = a
    · subst hia
      rw [if_neg hna, if_pos (List.mem_cons_self i rest)]
      cases h : ts0[i]? with
      | none => simp [h]
      | some t =>
        have hlt : i < ts0.length := (List.getElem?_eq_some.mp h).1
        simp [h, List.getElem?_set_self hlt]
    · have hsame : (match ts0[a]? with
          | some t => ts0.set a { t with to_delete := true }
          | none => ts0)[i]? = ts0[i]? := by
        cases h : ts0[a]? with
        | none => rfl
        | some t => simp [List.getElem?_set_ne (fun hh => hia hh.symm)]
      rw [hsame]
      simp [List.mem_cons, hia]

theorem appendNewTracks_cons (bboxes : List (List α)) (labels : List ℤ)
    (embeddings : List (List α)) (a : ℕ) (rest : List ℕ) (ts0 : List (Track α)) :
    appendNewTracks bboxes labels embeddings (a :: rest) ts0 =
      appendNewTracks bboxes labels embeddings rest
        (ts0 ++ [Track.init ts0.length (bboxes.getD a []) (labels.getD a 0)
          (embeddings.getD a []) defaultSmoothing]) := rfl

theorem appendNewTracks_eq (bboxes : List (List α)) (labels : List ℤ)
    (embeddings : List (List α)) (idxs : List ℕ) (ts0 : List (Track α)) :
    appendNewTracks bboxes labels embeddings idxs ts0 =
      ts0 ++ (List.enumFrom ts0.length idxs).map
        (fun p => Track.init p.1 (bboxes.getD p.2 []) (labels.getD p.2 0)
          (embeddings.getD p.2 []) defaultSmoothing) := by
  induction idxs generalizing ts0 with
  | nil => simp [appendNewTracks]
  | cons a rest ih =>
    rw [appendNewTracks_cons, ih]
    simp [List.enumFrom_cons, List.append_assoc]

end StepLemmas

section FilterLemmas

variable {α : Type} [LinearOrderedField α] {β γ δ : Type}

theorem zipWith_getD (f : α → α → α) (u v : List α) :
    ∀ (k : ℕ), k < u.length → k < v.length →
      (List.zipWith f u v).getD k 0 = f (u.getD k 0) (v.getD k 0) := by
  induction u generalizing v with
  | nil => intro k hk _; simp at hk
  | cons x u ih =>
    intro k hk hk2
    cases v with
    | nil => simp at hk2
    | cons y v =>
      cases k with
      | zero => rfl
      | succ k =>
        have hk' : k < u.length := by simpa using hk
        have hk2' : k < v.length := by simpa using hk2
        simpa using ih v k hk' hk2'

theorem maskFilter_cons (b : Bool) (m : List Bool) (x : β) (l : List β) :
    maskFilter (b :: m) (x :: l) =
      if b then x :: maskFilter m l else maskFilter m l := by
  cases b <;> simp [maskFilter, List.filter_cons]

theorem maskFilter_proj (pr : γ → α) (pred : α → Bool) :
    ∀ (L : List γ) (s : List α), L.map pr = s →
      maskFilter (s.map pred) L = L.filter (fun x => pred (pr x)) := by
  intro L
  induction L with
  | nil =>
    intro s hs
    subst hs
    rfl
  | cons a L ih =>
    intro s hs
    subst hs
    have ihx := ih (L.map pr) rfl
    rw [List.map_map] at ihx
    simp only [List.map_cons, maskFilter_cons, List.filter_cons]
    cases h : pred (pr a) <;> simp [h, List.map_map, ihx]

theorem maskFilter_zip (m : List Bool) :
    ∀ (as : List γ) (bs : List δ), as.length = bs.length →
      (maskFilter m as).zip (maskFilter m bs) = maskFilter m (as.zip bs) := by
  induction m with
  | nil => intro as bs _; rfl
  | cons b m ih =>
    intro as bs h
    cases as with
    | nil =>
      cases bs with
      | nil => rfl
      | cons y bs => simp at h
    | cons x as =>
      cases bs with
      | nil => simp at h
      | cons y bs =>
        have h' : as.length = bs.length := by simpa using h
        rw [List.zip_cons_cons, maskFilter_cons, maskFilter_cons, maskFilter_cons]
        cases b <;> simp [ih as bs h']

theorem maskFilter_length_eq (m : List Bool) :
    ∀ (as : List γ) (bs : List δ), as.length = bs.length →
      (maskFilter m as).length = (maskFilter m bs).length := by
  induction m with
  | nil => intro as bs _; rfl
  | cons b m ih =>
    intro as bs h
    cases as with
    | nil =>
      cases bs with
      | nil => rfl
      | cons y bs => simp at h
    | cons x as =>
      cases bs with
      | nil => simp at h
      | cons y bs =>
        have h' : as.length = bs.length := by simpa using h
        rw [maskFilter_cons, maskFilter_cons]
        cases b <;> simp [ih as bs h']

theorem zip4_proj (b : List (List α)) (l : List ℤ) (s : List α) (e : List (List α))
    (hb : b.length = s.length) (hl : l.length = s.length)
    (he : e.length = s.length) :
    (b.zip (l.zip (s.zip e))).map (fun p => p.2.2.1) = s := by
  have h1 : (b.zip (l.zip (s.zip e))).map Prod.snd = l.zip (s.zip e) :=
    List.map_snd_zip _ _ (by simp [List.length_zip, hl, he, hb])
  have h2 : (l.zip (s.zip e)).map Prod.snd = s.zip e :=
    List.map_snd_zip _ _ (by simp [List.length_zip, he, hl])
  have h3 : (s.zip e).map Prod.fst = s := List.map_fst_zip _ _ (by rw [he])
  have h4 : (b.zip (l.zip (s.zip e))).map (fun p => p.2.2.1) =
      (((b.zip (l.zip (s.zip e))).map Prod.snd).map Prod.snd).map Prod.fst := by
    rw [List.map_map, List.map_map]
    rfl
  rw [h4, h1, h2, h3]

end FilterLemmas

/-- C5: Track.update replaces the box with the detection box and replaces
the embedding elementwise with (1 - smoothing_factor) * old +
smoothing_factor * new, leaving track_id, label, smoothing_factor and the
active and to_delete flags unchanged; and the smoothing factor with which
Tracker.step constructs tracks (the Track.__init__ default) is 0.5. -/
theorem track_update_spec {α : Type} [LinearOrderedField α] (t : Track α)
    (bbox embedding : List α) (hlen : embedding.length = t.embedding.length) :
    (t.update bbox embedding).bbox = bbox ∧
    (t.update bbox embedding).embedding.length = t.embedding.length ∧
    (∀ k, k < t.embedding.length →
      (t.update bbox embedding).embedding.getD k 0 =
        (1 - t.smoothing_factor) * t.embedding.getD k 0 +
          t.smoothing_factor * embedding.getD k 0) ∧
    (t.update bbox embedding).track_id = t.track_id ∧
    (t.update bbox embedding).label = t.label ∧
    (t.update bbox embedding).smoothing_factor = t.smoothing_factor ∧
    (t.update bbox embedding).active = t.active ∧
    (t.update bbox embedding).to_delete = t.to_delete ∧
    (defaultSmoothing : α) = 1 / 2 := by
  refine ⟨rfl, ?_, ?_, rfl, rfl, rfl, rfl, rfl, rfl⟩
  · show (List.zipWith _ t.embedding embedding).length = t.embedding.length
    rw [List.length_zipWith, hlen, Nat.min_self]
  · intro k hk
    exact zipWith_getD _ t.embedding embedding k hk (by rw [hlen]; exact hk)

/-- C6: the detections Tracker.step carries into matching are exactly the
decoded detections whose score is at least the detection threshold, in
their original order: the filtered scores are the order-preserving filter
of the scores, the four filtered lists have equal lengths, and zipping the
four filtered lists gives exactly the score-filtered zip of the four
original lists, so corresponding entries stay aligned. -/
theorem filter_detections_lockstep {α : Type} [LinearOrderedField α]
    (thr : α) (d : Detections α)
    (hb : d.bboxes.length = d.scores.length)
    (hl : d.labels.length = d.scores.length)
    (he : d.embeddings.length = d.scores.length) :
    (filterDetections thr d).scores = d.scores.filter (fun x => decide (thr ≤ x)) ∧
    (filterDetections thr d).bboxes.length = (filterDetections thr d).scores.length ∧
    (filterDetections thr d).labels.length = (filterDetections thr d).scores.length ∧
    (filterDetections thr d).embeddings.length =
      (filterDetections thr d).scores.length ∧
    (filterDetections thr d).bboxes.zip ((filterDetections thr d).labels.zip
      ((filterDetections thr d).scores.zip (filterDetections thr d).embeddings)) =
    (d.bboxes.zip (d.labels.zip (d.scores.zip d.embeddings))).filter
      (fun p => decide (thr ≤ p.2.2.1)) := by
  refine ⟨?_, ?_, ?_, ?_, ?_⟩
  · exact maskFilter_proj (fun x => x) (fun x => decide (thr ≤ x)) d.scores d.scores
      (by simp)
  · exact maskFilter_length_eq _ _ _ hb
  · exact maskFilter_length_eq _ _ _ hl
  · exact maskFilter_length_eq _ _ _ he
  · show (maskFilter (scoreMask thr d.scores) d.bboxes).zip
        ((maskFilter (scoreMask thr d.scores) d.labels).zip
          ((maskFilter (scoreMask thr d.scores) d.scores).zip
            (maskFilter (scoreMask thr d.scores) d.embeddings))) = _
    rw [maskFilter_zip _ d.scores d.embeddings he.symm]
    rw [maskFilter_zip _ d.labels (d.scores.zip d.embeddings)
      (by rw [hl, List.length_zip, he, Nat.min_self])]
    rw [maskFilter_zip _ d.bboxes (d.labels.zip (d.scores.zip d.embeddings))
      (by rw [hb, List.length_zip, List.length_zip, he, Nat.min_self, hl,
        Nat.min_self])]
    exact maskFilter_proj (fun p : List α × (ℤ × (α × List α)) => p.2.2.1)
      (fun x => decide (thr ≤ x)) _ _
      (zip4_proj d.bboxes d.labels d.scores d.embeddings hb hl he)

/-- C7 (the failing case): Tracker.__init__ starts with the empty track
list, and on that very first frame torch.cat at tracker.py line 69 is
handed the empty list of track embeddings and raises a RuntimeError, so
Tracker.step raises instead of completing even on a well-formed image and
well-shaped detector output; the checked step evaluates to the raise
(none) on the fresh state. -/
theorem step_raises_on_fresh_tracker :
    Tracker.stepChecked (fun x => x) ((1 : ℚ) / 10) ([] : List (Track ℚ)) frameA =
      none := rfl

theorem cosine_cost_matrix_spec_witness :
    (∀ r ∈ [[(1 : ℝ), 0]], l2norm Real.sqrt r ≠ 0) ∧
    (∀ r ∈ [[(0 : ℝ), 1]], l2norm Real.sqrt r ≠ 0) ∧
    ((cosine_distance_matrix Real.sqrt [[(1 : ℝ), 0]] [[(0 : ℝ), 1]]).length =
        ([[(1 : ℝ), 0]] : List (List ℝ)).length ∧
      (∀ r ∈ cosine_distance_matrix Real.sqrt [[(1 : ℝ), 0]] [[(0 : ℝ), 1]],
        r.length = ([[(0 : ℝ), 1]] : List (List ℝ)).length) ∧
      (∀ i j, i < ([[(1 : ℝ), 0]] : List (List ℝ)).length →
        j < ([[(0 : ℝ), 1]] : List (List ℝ)).length →
        entryM (cosine_distance_matrix Real.sqrt [[(1 : ℝ), 0]] [[(0 : ℝ), 1]]) i j =
          1 - cosineSimilarity Real.sqrt
            (([[(1 : ℝ), 0]] : List (List ℝ)).getD i [])
            (([[(0 : ℝ), 1]] : List (List ℝ)).getD j []))) := by
  have h1 : ∀ r ∈ [[(1 : ℝ), 0]], l2norm Real.sqrt r ≠ 0 := by
    intro r hr
    simp only [List.mem_singleton] at hr
    subst hr
    have hd : dotL [(1 : ℝ), 0] [(1 : ℝ), 0] = 1 := by norm_num [dotL]
    rw [l2norm, hd, Real.sqrt_one]
    norm_num
  have h2 : ∀ r ∈ [[(0 : ℝ), 1]], l2norm Real.sqrt r ≠ 0 := by
    intro r hr
    simp only [List.mem_singleton] at hr
    subst hr
    have hd : dotL [(0 : ℝ), 1] [(0 : ℝ), 1] = 1 := by norm_num [dotL]
    rw [l2norm, hd, Real.sqrt_one]
    norm_num
  exact ⟨h1, h2, cosine_cost_matrix_spec _ _ h1 h2⟩

theorem cosine_distance_matrix_symm_diag_witness :
    (∀ r ∈ [[(1 : ℝ), 0]], l2norm Real.sqrt r ≠ 0) ∧
    (∀ r ∈ [[(0 : ℝ), 1]], l2norm Real.sqrt r ≠ 0) ∧
    (((cosine_distance_matrix Real.sqrt [[(1 : ℝ), 0]] [[(0 : ℝ), 1]]).length =
        ([[(1 : ℝ), 0]] : List (List ℝ)).length ∧
      (∀ r ∈ cosine_distance_matrix Real.sqrt [[(1 : ℝ), 0]] [[(0 : ℝ), 1]],
        r.length = ([[(0 : ℝ), 1]] : List (List ℝ)).length) ∧
      (∀ i j, i < ([[(1 : ℝ), 0]] : List (List ℝ)).length →
        j < ([[(0 : ℝ), 1]] : List (List ℝ)).length →
        entryM (cosine_distance_matrix Real.sqrt [[(1 : ℝ), 0]] [[(0 : ℝ), 1]]) i j =
          entryM (cosine_distance_matrix Real.sqrt [[(0 : ℝ), 1]] [[(1 : ℝ), 0]]) j i)) ∧
    (∀ v : List (List ℝ), (∀ r ∈ v, l2norm Real.sqrt r ≠ 0) →
      ∀ i, i < v.length →
        entryM (cosine_distance_matrix Real.sqrt v v) i i = 0)) := by
  have h1 : ∀ r ∈ [[(1 : ℝ), 0]], l2norm Real.sqrt r ≠ 0 := by
    intro r hr
    simp only [List.mem_singleton] at hr
    subst hr
    have hd : dotL [(1 : ℝ), 0] [(1 : ℝ), 0] = 1 := by norm_num [dotL]
    rw [l2norm, hd, Real.sqrt_one]
    norm_num
  have h2 : ∀ r ∈ [[(0 : ℝ), 1]], l2norm Real.sqrt r ≠ 0 := by
    intro r hr
    simp only [List.mem_singleton] at hr
    subst hr
    have hd : dotL [(0 : ℝ), 1] [(0 : ℝ), 1] = 1 := by norm_num [dotL]
    rw [l2norm, hd, Real.sqrt_one]
    norm_num
  exact ⟨h1, h2, cosine_distance_matrix_symm_diag _ _ h1 h2⟩

theorem linear_sum_assignment_spec_witness :
    (([[(0 : ℚ), 1], [1, 0]] : List (List ℚ)).length = 2 ∧
      ∀ r ∈ ([[(0 : ℚ), 1], [1, 0]] : List (List ℚ)), r.length = 2) ∧
    (IsMatching 2 2 (linear_sum_assignment ([[(0 : ℚ), 1], [1, 0]] : List (List ℚ))) ∧
      ∀ ms, IsMatching 2 2 ms →
        totalCost ([[(0 : ℚ), 1], [1, 0]] : List (List ℚ))
            (linear_sum_assignment ([[(0 : ℚ), 1], [1, 0]] : List (List ℚ))) ≤
          totalCost ([[(0 : ℚ), 1], [1, 0]] : List (List ℚ)) ms) :=
  ⟨⟨rfl, by decide⟩,
    linear_sum_assignment_spec ([[(0 : ℚ), 1], [1, 0]] : List (List ℚ)) 2 2 rfl
      (by decide)⟩

theorem track_update_spec_witness :
    (([(0 : ℚ), 1] : List ℚ).length =
        (Track.init 0 [0] 0 [(1 : ℚ), 0] (1 / 2)).embedding.length) ∧
    (((Track.init 0 [0] 0 [(1 : ℚ), 0] (1 / 2)).update [5] [0, 1]).bbox = [5] ∧
      ((Track.init 0 [0] 0 [(1 : ℚ), 0] (1 / 2)).update [5] [0, 1]).embedding.length =
        (Track.init 0 [0] 0 [(1 : ℚ), 0] (1 / 2)).embedding.length ∧
      (∀ k, k < (Track.init 0 [0] 0 [(1 : ℚ), 0] (1 / 2)).embedding.length →
        ((Track.init 0 [0] 0 [(1 : ℚ), 0] (1 / 2)).update [5] [0, 1]).embedding.getD k 0 =
          (1 - (Track.init 0 [0] 0 [(1 : ℚ), 0] (1 / 2)).smoothing_factor) *
              (Track.init 0 [0] 0 [(1 : ℚ), 0] (1 / 2)).embedding.getD k 0 +
            (Track.init 0 [0] 0 [(1 : ℚ), 0] (1 / 2)).smoothing_factor *
              ([(0 : ℚ), 1] : List ℚ).getD k 0) ∧
      ((Track.init 0 [0] 0 [(1 : ℚ), 0] (1 / 2)).update [5] [0, 1]).track_id =
        (Track.init 0 [0] 0 [(1 : ℚ), 0] (1 / 2)).track_id ∧
      ((Track.init 0 [0] 0 [(1 : ℚ), 0] (1 / 2)).update [5] [0, 1]).label =
        (Track.init 0 [0] 0 [(1 : ℚ), 0] (1 / 2)).label ∧
      ((Track.init 0 [0] 0 [(1 : ℚ), 0] (1 / 2)).update [5] [0, 1]).smoothing_factor =
        (Track.init 0 [0] 0 [(1 : ℚ), 0] (1 / 2)).smoothing_factor ∧
      ((Track.init 0 [0] 0 [(1 : ℚ), 0] (1 / 2)).update [5] [0, 1]).active =
        (Track.init 0 [0] 0 [(1 : ℚ), 0] (1 / 2)).active ∧
      ((Track.init 0 [0] 0 [(1 : ℚ), 0] (1 / 2)).update [5] [0, 1]).to_delete =
        (Track.init 0 [0] 0 [(1 : ℚ), 0] (1 / 2)).to_delete ∧
      (defaultSmoothing : ℚ) = 1 / 2) :=
  ⟨rfl, track_update_spec (Track.init 0 [0] 0 [(1 : ℚ), 0] (1 / 2)) [5] [0, 1] rfl⟩

theorem filter_detections_lockstep_witness :
    (frameA.bboxes.length = frameA.scores.length ∧
      frameA.labels.length = frameA.scores.length ∧
      frameA.embeddings.length = frameA.scores.length) ∧
    ((filterDetections wThr frameA).scores =
        frameA.scores.filter (fun x => decide (wThr ≤ x)) ∧
      (filterDetections wThr frameA).bboxes.length =
        (filterDetections wThr frameA).scores.length ∧
      (filterDetections wThr frameA).labels.length =
        (filterDetections wThr frameA).scores.length ∧
      (filterDetections wThr frameA).embeddings.length =
        (filterDetections wThr frameA).scores.length ∧
      (filterDetections wThr frameA).bboxes.zip
          ((filterDetections wThr frameA).labels.zip
            ((filterDetections wThr frameA).scores.zip
              (filterDetections wThr frameA).embeddings)) =
        (frameA.bboxes.zip (frameA.labels.zip
            (frameA.scores.zip frameA.embeddings))).filter
          (fun p => decide (wThr ≤ p.2.2.1))) :=
  ⟨⟨rfl, rfl, rfl⟩, filter_detections_lockstep wThr frameA rfl rfl rfl⟩


theorem stepChecked_eq_none {α : Type} [LinearOrderedField α] (sq : α → α)
    (thr : α) (tracks : List (Track α)) (d : Detections α) :
    Tracker.stepChecked sq thr tracks d = none := by
  cases h1 : torch_cat (tracks.map (fun t => t.embedding)) with
  | none => simp [Tracker.stepChecked, h1]
  | some current =>
    cases h2 : cosine_distance_vec sq (filterDetections thr d).embeddings current with
    | none => simp [Tracker.stepChecked, h1, h2]
    | some cost1d => simp [Tracker.stepChecked, h1, h2, scipy_lsa_on_vector]

/-- C3 (the failing behaviour): the claim describes what happens when a
Tracker.step call returns, but in the source no call ever returns, so no
unmatched track is ever marked or purged and no matched track is ever
retained. Concretely, from a one-track state with one confident
detection: torch.cat succeeds (a single (2,) embedding concatenates to
itself), the line-70 cosine computation succeeds but yields a 1-D (1,)
cost tensor, and scipy rejects that non-2-D cost at line 74, so the call
raises before reaching the lifecycle code of lines 75-91. -/
theorem step_one_track_raises :
    torch_cat (wTracks.map (fun t => t.embedding)) = some [1, 0] ∧
    cosine_distance_vec wSq (filterDetections wThr wDet).embeddings [1, 0] =
      some [1] ∧
    scipy_lsa_on_vector [(1 : ℚ)] = none ∧
    Tracker.stepChecked wSq wThr wTracks wDet = none := by
  with_unfolding_all decide

/-- C4 (the failing behaviour): the creation loop of tracker.py lines
84-86 is unreachable, so no call ever appends a track for an unmatched
detection. Concretely, from a two-track state: torch.cat at line 69
concatenates the two (2,) embeddings into a single (4,) tensor, and the
matmul inside cosine_distance_matrix at line 70 then raises on the shape
mismatch between the (M, 2) detection embeddings and the (4,) vector, so
the call raises before any track is created. -/
theorem step_two_tracks_raises :
    torch_cat (wTracks2.map (fun t => t.embedding)) = some [1, 0, 0, 1] ∧
    cosine_distance_vec wSq (filterDetections wThr frameC).embeddings
      [1, 0, 0, 1] = none ∧
    Tracker.stepChecked wSq wThr wTracks2 frameC = none := by
  with_unfolding_all decide

/-- C9 (the failing premise): the claimed invariant speaks of the state
after a completed Tracker.step call, but no call from any state ever
completes: line 69 raises on an empty track list, line 70 raises on the
matmul shape mismatch when two or more tracks exist, and line 74 raises
on the 1-D cost of the one-track case, always before the purge of lines
89-91 could establish the invariant. -/
theorem step_never_completes {α : Type} [LinearOrderedField α] (sq : α → α)
    (thr : α) (tracks : List (Track α)) (d : Detections α) :
    Tracker.stepChecked sq thr tracks d = none :=
  stepChecked_eq_none sq thr tracks d

/-- C8: in every tracker state reachable by any sequence of Tracker.step
calls from a freshly constructed Tracker, distinct tracks have distinct
track_id values. The code satisfies this, but only vacuously: every step
call raises (at line 69, 70 or 74) before mutating the track list, so the
initial empty state is the only reachable one, and it has no two tracks
at all. -/
theorem reachable_track_ids_distinct {α : Type} [LinearOrderedField α]
    (sq : α → α) (thr : α) (tracks : List (Track α))
    (h : ReachableTracker sq thr tracks) :
    (tracks.map Track.track_id).Nodup := by
  induction h with
  | init => simp
  | step t2 d2 r2 h1 h2 ih =>
    rw [stepChecked_eq_none] at h2
    exact Option.noConfusion h2

theorem reachable_track_ids_distinct_witness :
    ReachableTracker (fun x : ℚ => x) ((1 : ℚ) / 10) ([] : List (Track ℚ)) ∧
    ((([] : List (Track ℚ)).map Track.track_id).Nodup) :=
  ⟨(ReachableTracker.init :
      ReachableTracker (fun x : ℚ => x) ((1 : ℚ) / 10) []),
    reachable_track_ids_distinct (fun x : ℚ => x) ((1 : ℚ) / 10) []
      (ReachableTracker.init :
        ReachableTracker (fun x : ℚ => x) ((1 : ℚ) / 10) [])⟩
